import Mathlib

/-
Shallow embedding of the latent-walk utilities in
guides/keras_cv/random_walks_with_stable_diffusion.py.

Tensors are modelled elementwise: a latent tensor is a rational (or real) value
per coordinate, since every operation in the walks (addition, scalar scaling,
cos/sin weighting, linspace) acts coordinatewise.  Lists of rationals stand for
concrete small tensors where a whole-tensor statement is needed.  The external
model call (model.generate_image) is an injected function `gen` producing one
frame per latent vector, per the external-collaborator contract.  TensorFlow's
`tf.random.normal` is modelled by two ambient streams: `prng seed i` for calls
carrying an op-level seed (a deterministic stream per TensorFlow's seeding
semantics) and `env i` for unseeded calls, which depend on run-specific entropy.
-/

/-- Python `images[2:-1][::-1]`: the frames appended by the rubber-band branch of
`export_as_gif`.  `images[2:-1]` keeps indices 2 .. len-2, i.e. drops the first
TWO frames and the last; `[::-1]` reverses. -/
def rubber_band_ext {F : Type} (images : List F) : List F :=
  ((images.drop 2).dropLast).reverse

/-- The gif artifact written by `images[0].save(..., append_images=images[1:],
duration=1000 // frames_per_second, loop=0)`: the full frame list, the per-frame
duration in milliseconds, and the loop count (0 = loop forever). -/
structure GifArtifact (F : Type) where
  frames : List F
  duration : Nat
  loop : Nat

/-- Failures of `export_as_gif`: `indexError` models Python's IndexError raised by
`images[0]` on an empty list; `zeroDivisionError` models `1000 // 0`. -/
inductive GifError where
  | indexError
  | zeroDivisionError

/-- `export_as_gif(filename, images, frames_per_second, rubber_band)`.
The first component of the result is the caller's list after the call: Python's
`images += images[2:-1][::-1]` extends the caller's list object in place, so the
caller observes `images ++ rubber_band_ext images` when `rubber_band` is true.
The second component is the save outcome.  `images[0]` is evaluated before the
`duration` argument, so the empty-list failure precedes the `fps = 0` failure. -/
def export_as_gif {F : Type} (images : List F) (frames_per_second : Nat)
    (rubber_band : Bool) : List F × Except GifError (GifArtifact F) :=
  let images' := if rubber_band then images ++ rubber_band_ext images else images
  (images', match images'.head? with
    | none => Except.error GifError.indexError
    | some f =>
        if frames_per_second = 0 then Except.error GifError.zeroDivisionError
        else Except.ok ⟨f :: images'.tail, 1000 / frames_per_second, 0⟩)

/-- The slice of the walk handed to the generator at chunk index `s`:
`walk[batch_size*s : batch_size*(s+1)]`. -/
def walk_chunk {V : Type} (walk : List V) (B s : Nat) : List V :=
  (walk.drop (B * s)).take B

/-- The batching pattern shared by the three generation loops of the guide:
`for step_index in range(steps // batch_size): images += map(gen, chunk)`.
Note the floor division: only `len(walk) // B` chunks are processed. -/
def batched_images {V F : Type} (gen : V → F) (walk : List V) (B : Nat) : List F :=
  (List.range (walk.length / B)).flatMap (fun s => (walk_chunk walk B s).map gen)

/-- Number of generator invocations made by the batching loops:
`range(steps // batch_size)` has `steps // batch_size` elements. -/
def num_chunks {V : Type} (walk : List V) (B : Nat) : Nat := walk.length / B

/-- One coordinate of `tf.linspace(a, b, num)` at index `i`:
`a + (b - a) * i / (num - 1)` (both endpoints included when `num ≥ 2`). -/
def linspace_at (a b : ℚ) (num i : Nat) : ℚ :=
  a + (b - a) * (i : ℚ) / ((num - 1 : Nat) : ℚ)

/-- `tf.linspace(encoding_1, encoding_2, interpolation_steps)` on whole tensors,
elementwise over same-shape vectors. -/
def tf_linspace (a b : List ℚ) (num : Nat) : List (List ℚ) :=
  (List.range num).map (fun i => List.zipWith (fun x y => linspace_at x y num i) a b)

/-- One coordinate of the fine-grained interpolation encoding at global index `j`:
`encoding_1 + j * encoding_step` with `encoding_step = (encoding_2 - encoding_1)
/ interpolation_steps`. -/
def fine_encoding (e1 e2 : ℚ) (steps j : Nat) : ℚ :=
  e1 + (j : ℚ) * ((e2 - e1) / (steps : ℚ))

/-- The fine-grained interpolation loop: chunk `step_index` uses offsets
`tf.linspace(B*step_index, B*(step_index+1) - 1, B)` (exactly the integers
`B*step_index + k`), and the loop runs `range(interpolation_steps // batch_size)`
times. -/
def fine_walk (e1 e2 : ℚ) (steps B : Nat) : List ℚ :=
  (List.range (steps / B)).flatMap (fun s =>
    (List.range B).map (fun k => fine_encoding e1 e2 steps (B * s + k)))

/-- The accumulating `encoding` variable of the random-walk loop after `i`
updates: `start` plus the first `i` deltas. -/
def rw_pos {V : Type} [Add V] (delta : Nat → V) (start : V) : Nat → V
  | 0 => start
  | Nat.succ i => rw_pos delta start i + delta i

/-- Inner loop of the random walk: `for individual_image_step in range(batch_size):
batch_encodings.append(encoding); encoding += random_deltas`.  `c` is the global
index of the next delta draw; returns the batch and the final accumulator
(TensorFlow `+=` rebinds the tensor, it does not mutate appended elements). -/
def rw_batch {V : Type} [Add V] (delta : Nat → V) : V → Nat → Nat → List V × V
  | enc, _, 0 => ([], enc)
  | enc, c, Nat.succ B =>
      ((enc :: (rw_batch delta (enc + delta c) (c + 1) B).1),
        (rw_batch delta (enc + delta c) (c + 1) B).2)

/-- Outer loop of the random walk: `for step_index in range(walk_steps //
batch_size)`, concatenating the per-chunk batches in order. -/
def rw_outer {V : Type} [Add V] (delta : Nat → V) : V → Nat → Nat → Nat → List V
  | _, _, _, 0 => []
  | enc, c, B, Nat.succ s =>
      (rw_batch delta enc c B).1 ++
        rw_outer delta (rw_batch delta enc c B).2 (c + B) B s

/-- The full random walk around a text prompt: `steps / B` chunks of `B`
appended encodings, deltas drawn in a single global order. -/
def random_walk {V : Type} [Add V] (delta : Nat → V) (start : V) (steps B : Nat) :
    List V :=
  rw_outer delta start 0 B (steps / B)

/-- The guide's random walk with its randomness made explicit: every delta is
`tf.random.normal((77, 768), stddev=step_size, seed=seed)`, modelled as
`step_size • prng seed i` — a seeded, hence run-independent, stream.  The
ambient unseeded stream `env` is passed to record that this walk never draws
from it. -/
def text_random_walk {V : Type} [AddCommMonoid V] [Module ℚ V]
    (prng : Nat → Nat → V) (env : Nat → V) (seed : Nat) (step_size : ℚ)
    (start : V) (steps B : Nat) : List V :=
  random_walk (fun i => step_size • prng seed i) start steps B

/-- One coordinate of the circular-walk noise at global step `i`:
`cos(i * 2π / walk_steps) * walk_noise_x + sin(i * 2π / walk_steps) * walk_noise_y`. -/
noncomputable def circ_vec (steps i : Nat) (nx ny : ℝ) : ℝ :=
  Real.cos ((i : ℝ) * (2 * Real.pi) / (steps : ℝ)) * nx +
    Real.sin ((i : ℝ) * (2 * Real.pi) / (steps : ℝ)) * ny

/-- The circular diffusion-noise walk loop: chunk `step` covers global indices
`tf.linspace(batch_size*step, batch_size*(step+1) - 1, batch_size)` (the
integers `B*step + k`), over `range(walk_steps // batch_size)` chunks. -/
noncomputable def circular_walk (steps B : Nat) (nx ny : ℝ) : List ℝ :=
  (List.range (steps / B)).flatMap (fun s =>
    (List.range B).map (fun k => circ_vec steps (B * s + k) nx ny))

/-- The circular walk as run by the guide: `walk_noise_x = tf.random.normal(
noise.shape, dtype=tf.float64)` and likewise `walk_noise_y` carry NO seed
argument, so both base tensors come from the unseeded ambient stream `env`. -/
noncomputable def noise_circular_walk (env : Nat → ℝ) (steps B : Nat) : List ℝ :=
  circular_walk steps B (env 0) (env 1)

theorem zipWith_congr_fun {α β γ : Type} (f g : α → β → γ) (h : ∀ x y, f x y = g x y) :
    ∀ (a : List α) (b : List β), List.zipWith f a b = List.zipWith g a b := by
  intro a
  induction a with
  | nil => intro b; rfl
  | cons x t ih =>
    intro b
    cases b with
    | nil => rfl
    | cons y u => simp [List.zipWith, h, ih]

theorem zipWith_left {α β : Type} :
    ∀ (a : List α) (b : List β), a.length ≤ b.length →
      List.zipWith (fun x _ => x) a b = a := by
  intro a
  induction a with
  | nil => intro b _; rfl
  | cons x t ih =>
    intro b hb
    cases b with
    | nil => simp at hb
    | cons y u =>
      simp only [List.zipWith]
      simp only [List.length_cons, Nat.add_le_add_iff_right] at hb
      rw [ih u hb]

theorem zipWith_right {α β : Type} :
    ∀ (a : List α) (b : List β), b.length ≤ a.length →
      List.zipWith (fun _ y => y) a b = b := by
  intro a
  induction a with
  | nil =>
    intro b hb
    cases b with
    | nil => rfl
    | cons y u => simp at hb
  | cons x t ih =>
    intro b hb
    cases b with
    | nil => rfl
    | cons y u =>
      simp only [List.zipWith]
      simp only [List.length_cons, Nat.add_le_add_iff_right] at hb
      rw [ih u hb]

theorem head_of_map_range {β : Type} (f : Nat → β) (n : Nat) (h : 0 < n) :
    ((List.range n).map f).head? = some (f 0) := by
  cases n with
  | zero => omega
  | succ m => simp [List.range_succ_eq_map]

theorem getLast_of_map_range {β : Type} (f : Nat → β) (n : Nat) (h : 0 < n) :
    ((List.range n).map f).getLast? = some (f (n - 1)) := by
  cases n with
  | zero => omega
  | succ m =>
    rw [List.getLast?_map, List.range_succ]
    simp

theorem flatMap_range_map {α : Type} (B : Nat) (g : Nat → α) :
    ∀ n, (List.range n).flatMap (fun s => (List.range B).map (fun k => g (B * s + k)))
      = (List.range (B * n)).map g := by
  intro n
  induction n with
  | zero => simp
  | succ m ih =>
    rw [List.range_succ, List.flatMap_append, ih]
    have h : B * (m + 1) = B * m + B := by ring
    rw [h, List.range_add, List.map_append]
    refine congrArg₂ _ rfl ?_
    simp only [List.flatMap_cons, List.flatMap_nil, List.append_nil, List.map_map]
    apply List.map_congr_left
    intro k _
    rfl

theorem walk_chunks_concat {V : Type} (walk : List V) (B : Nat) :
    ∀ n, (List.range n).flatMap (walk_chunk walk B) = walk.take (B * n) := by
  intro n
  induction n with
  | zero => simp
  | succ m ih =>
    rw [List.range_succ, List.flatMap_append, ih]
    have h : B * (m + 1) = B * m + B := by ring
    rw [h, List.take_add]
    simp [walk_chunk]

theorem batched_images_eq {V F : Type} (gen : V → F) (walk : List V) (B : Nat) :
    batched_images gen walk B = (walk.take (B * (walk.length / B))).map gen := by
  unfold batched_images
  rw [← List.map_flatMap, walk_chunks_concat]

theorem rw_batch_fst {V : Type} [Add V] (delta : Nat → V) (start : V) :
    ∀ B c, (rw_batch delta (rw_pos delta start c) c B).1
      = (List.range B).map (fun k => rw_pos delta start (c + k)) := by
  intro B
  induction B with
  | zero => intro c; simp [rw_batch]
  | succ m ih =>
    intro c
    have h1 : rw_pos delta start c + delta c = rw_pos delta start (c + 1) := rfl
    rw [rw_batch, h1, ih (c + 1), List.range_succ_eq_map, List.map_cons, List.map_map]
    refine congrArg₂ _ (by simp) ?_
    apply List.map_congr_left
    intro k _
    simp only [Function.comp_apply]
    congr 1
    omega

theorem rw_batch_snd {V : Type} [Add V] (delta : Nat → V) (start : V) :
    ∀ B c, (rw_batch delta (rw_pos delta start c) c B).2
      = rw_pos delta start (c + B) := by
  intro B
  induction B with
  | zero => intro c; simp [rw_batch]
  | succ m ih =>
    intro c
    have h1 : rw_pos delta start c + delta c = rw_pos delta start (c + 1) := rfl
    rw [rw_batch, h1, ih (c + 1)]
    congr 1
    omega

theorem rw_outer_eq {V : Type} [Add V] (delta : Nat → V) (start : V) (B : Nat) :
    ∀ chunks c, rw_outer delta (rw_pos delta start c) c B chunks
      = (List.range (chunks * B)).map (fun k => rw_pos delta start (c + k)) := by
  intro chunks
  induction chunks with
  | zero => intro c; simp [rw_outer]
  | succ s ih =>
    intro c
    rw [rw_outer, rw_batch_fst delta start B c, rw_batch_snd delta start B c, ih (c + B)]
    have h : (s + 1) * B = B + s * B := by ring
    rw [h, List.range_add, List.map_append, List.map_map]
    refine congrArg₂ _ rfl ?_
    apply List.map_congr_left
    intro k _
    simp only [Function.comp_apply]
    congr 1
    omega

theorem random_walk_eq {V : Type} [Add V] (delta : Nat → V) (start : V) (steps B : Nat) :
    random_walk delta start steps B
      = (List.range (steps / B * B)).map (rw_pos delta start) := by
  have h := rw_outer_eq delta start B (steps / B) 0
  refine Eq.trans h ?_
  apply List.map_congr_left
  intro k _
  rw [Nat.zero_add]

theorem linspace_at_zero (x y : ℚ) (steps : Nat) : linspace_at x y steps 0 = x := by
  simp [linspace_at]

theorem linspace_at_last (x y : ℚ) (steps : Nat) (h2 : 2 ≤ steps) :
    linspace_at x y steps (steps - 1) = y := by
  have hne : ((steps - 1 : Nat) : ℚ) ≠ 0 := Nat.cast_ne_zero.mpr (by omega)
  unfold linspace_at
  rw [mul_div_assoc, div_self hne, mul_one]
  ring

theorem circ_vec_zero (steps : Nat) (nx ny : ℝ) : circ_vec steps 0 nx ny = nx := by
  simp [circ_vec]

theorem noise_walk_env_dep :
    noise_circular_walk (fun _ => (0 : ℝ)) 4 2 ≠ noise_circular_walk (fun _ => (1 : ℝ)) 4 2 := by
  intro hcontra
  have hw : ∀ nx ny : ℝ, (circular_walk 4 2 nx ny).head? = some (circ_vec 4 0 nx ny) := by
    intro nx ny
    have h : circular_walk 4 2 nx ny
        = (List.range (2 * (4 / 2))).map (fun i => circ_vec 4 i nx ny) :=
      flatMap_range_map 2 (fun i => circ_vec 4 i nx ny) (4 / 2)
    rw [h]
    exact head_of_map_range _ _ (by norm_num)
  have h0 := congrArg List.head? hcontra
  simp only [noise_circular_walk] at h0
  rw [hw, hw, circ_vec_zero, circ_vec_zero] at h0
  simp only [Option.some.injEq] at h0
  norm_num at h0

/-- C1 counterexample: exporting frames `[0,1,2,3]` (playing the roles of
`[A,B,C,D]`) with `rubber_band=true` yields gif frames `[0,1,2,3,2]` — length 5,
not the claimed `N + (N-2) = 6`, because `images[2:-1]` excludes the first TWO
frames, so only `[2]` (i.e. `[C]`) is appended, not `[2,1]` (`[C,B]`). -/
theorem export_rubber_band_c1_cex :
    (export_as_gif [0, 1, 2, 3] 10 true).2 = Except.ok ⟨[0, 1, 2, 3, 2], 100, 0⟩
    ∧ ([0, 1, 2, 3, 2] : List Nat) ≠ [0, 1, 2, 3, 2, 1]
    ∧ ([0, 1, 2, 3, 2] : List Nat).length ≠ 4 + (4 - 2) :=
  ⟨rfl, by decide, by decide⟩

/-- C1 (amended): with `rubber_band=true` and at least 3 frames, the exporter
appends the REVERSE of `images[2:-1]` — all frames except the first two and the
last — so the output has `N + (N-3)` frames, and the appended frame at offset
`j` is input frame `N-2-j` (frames `N-2` down to `2`). -/
theorem export_rubber_band_append_slice {F : Type} (images : List F) (fps : Nat)
    (h3 : 3 ≤ images.length) (hfps : 0 < fps) :
    (export_as_gif images fps true).2
        = Except.ok ⟨images ++ rubber_band_ext images, 1000 / fps, 0⟩
    ∧ (images ++ rubber_band_ext images).length
        = images.length + (images.length - 3)
    ∧ (∀ j, j < images.length - 3 →
        (rubber_band_ext images)[j]? = images[images.length - 2 - j]?) := by
  refine ⟨?_, ?_, ?_⟩
  · obtain ⟨x, t, rfl⟩ : ∃ x t, images = x :: t := by
      cases images with
      | nil => simp at h3
      | cons x t => exact ⟨x, t, rfl⟩
    simp [export_as_gif, hfps.ne']
  · simp only [List.length_append, rubber_band_ext, List.length_reverse,
      List.length_dropLast, List.length_drop]
    omega
  · intro j hj
    have hdl : (images.drop 2).dropLast = (images.drop 2).take (images.length - 3) := by
      rw [List.dropLast_eq_take]
      congr 1
      simp only [List.length_drop]
      omega
    unfold rubber_band_ext
    rw [hdl]
    have hjl : j < ((images.drop 2).take (images.length - 3)).length := by
      rw [List.length_take, List.length_drop,
        min_eq_left (show images.length - 3 ≤ images.length - 2 by omega)]
      omega
    rw [List.getElem?_reverse hjl, List.length_take, List.length_drop,
      min_eq_left (show images.length - 3 ≤ images.length - 2 by omega),
      List.getElem?_take, if_pos (by omega), List.getElem?_drop]
    congr 1
    omega

/-- C1 amended-claim witness at frames `[0,1,2,3]`, 10 fps. -/
theorem export_rubber_band_append_slice_witness :
    (export_as_gif [0, 1, 2, 3] 10 true).2
        = Except.ok ⟨[0, 1, 2, 3] ++ rubber_band_ext [0, 1, 2, 3], 1000 / 10, 0⟩
    ∧ ([0, 1, 2, 3] ++ rubber_band_ext [0, 1, 2, 3]).length = 4 + (4 - 3)
    ∧ (rubber_band_ext [0, 1, 2, 3])[0]? = [0, 1, 2, 3][4 - 2 - 0]? := by
  have h := export_rubber_band_append_slice [0, 1, 2, 3] 10 (by decide) (by decide)
  exact ⟨h.1, h.2.1, h.2.2 0 (by decide)⟩

/-- C2 counterexample: a 10-vector walk with `maxBatchSize = 4` is processed as
`10 // 4 = 2` full chunks; the final short chunk is dropped, so the output has
8 frames, not 10, and the chunk count is 2, not `ceil(10/4) = 3`. -/
theorem batched_sampler_c2_cex :
    batched_images (fun v => v) (List.range 10) 4 = List.range 8
    ∧ (batched_images (fun v => v) (List.range 10) 4).length ≠ 10
    ∧ num_chunks (List.range 10) 4 ≠ (10 + 4 - 1) / 4 := by
  decide

/-- C2 (amended): the batching loops process exactly `L / B` (floor) chunks of
`B` vectors each, in input order: the output is `gen` mapped over the first
`B * (L / B)` vectors of the walk; when `B` divides `L` this is the whole walk,
otherwise the final `L mod B` vectors are never processed. -/
theorem batched_sampler_floor_chunks {V F : Type} (gen : V → F) (walk : List V)
    (B : Nat) (hB : 0 < B) :
    batched_images gen walk B = (walk.take (B * (walk.length / B))).map gen
    ∧ (batched_images gen walk B).length = B * (walk.length / B)
    ∧ num_chunks walk B = walk.length / B
    ∧ (B ∣ walk.length → batched_images gen walk B = walk.map gen) := by
  refine ⟨batched_images_eq gen walk B, ?_, rfl, ?_⟩
  · rw [batched_images_eq, List.length_map, List.length_take]
    exact min_eq_left (by rw [Nat.mul_comm]; exact Nat.div_mul_le_self _ _)
  · intro hdvd
    rw [batched_images_eq, Nat.mul_div_cancel' hdvd, List.take_length]

/-- C2 amended-claim witness at a 10-vector walk (and an 8-vector walk for the
divisible case), `maxBatchSize = 4`. -/
theorem batched_sampler_floor_chunks_witness :
    batched_images (fun v => v + 1) (List.range 10) 4
        = ((List.range 10).take (4 * ((List.range 10).length / 4))).map (fun v => v + 1)
    ∧ (batched_images (fun v => v + 1) (List.range 10) 4).length
        = 4 * ((List.range 10).length / 4)
    ∧ num_chunks (List.range 10) 4 = (List.range 10).length / 4
    ∧ batched_images (fun v => v + 1) (List.range 8) 4 = (List.range 8).map (fun v => v + 1) := by
  have h1 := batched_sampler_floor_chunks (fun v => v + 1) (List.range 10) 4 (by decide)
  have h2 := batched_sampler_floor_chunks (fun v => v + 1) (List.range 8) 4 (by decide)
  exact ⟨h1.1, h1.2.1, h1.2.2.1, h2.2.2.2 (by decide)⟩

/-- C3 counterexample: the fine-grained interpolation walk (the second
linear-interpolation implementation, with `encoding_step = (e2 - e1)/steps`)
from 0 to 1 with `steps = 4 ≥ 2`, `batch_size = 2`, produces `[0, 1/4, 1/2, 3/4]`:
its last element is `3/4`, not the endpoint 1. -/
theorem fine_interpolation_c3_cex :
    fine_walk 0 1 4 2 = [0, 1/4, 1/2, 3/4]
    ∧ (fine_walk 0 1 4 2).getLast? ≠ some 1 := by
  have h : fine_walk 0 1 4 2 = [0, 1/4, 1/2, 3/4] := by
    norm_num [fine_walk, fine_encoding, List.range_succ]
  refine ⟨h, ?_⟩
  rw [h]
  norm_num

/-- C3 (amended): the `tf.linspace` walk does satisfy the claim — first element
`vectorA`, last element `vectorB`, uniform spacing `(y-x)/(steps-1)` per
coordinate, and the concrete `[0,0] → [1,1]`, `steps=3` scenario — but the
fine-grained batched interpolation only reaches
`vectorA + (steps-1)·(vectorB-vectorA)/steps`, one `encoding_step` short of
`vectorB`. -/
theorem linear_walk_endpoints_amended (a b : List ℚ) (e1 e2 : ℚ) (steps B : Nat)
    (hab : a.length = b.length) (h2 : 2 ≤ steps) (hB : 0 < B) (hd : B ∣ steps) :
    (tf_linspace a b steps).head? = some a
    ∧ (tf_linspace a b steps).getLast? = some b
    ∧ (∀ x y : ℚ, ∀ i : Nat, linspace_at x y steps (i + 1) - linspace_at x y steps i
        = (y - x) / ((steps - 1 : Nat) : ℚ))
    ∧ tf_linspace [0, 0] [1, 1] 3 = [[0, 0], [1/2, 1/2], [1, 1]]
    ∧ (fine_walk e1 e2 steps B).getLast?
        = some (e1 + ((steps - 1 : Nat) : ℚ) * ((e2 - e1) / (steps : ℚ))) := by
  refine ⟨?_, ?_, ?_, ?_, ?_⟩
  · unfold tf_linspace
    rw [head_of_map_range _ _ (by omega)]
    rw [zipWith_congr_fun _ (fun x _ => x) (fun x y => linspace_at_zero x y steps) a b]
    rw [zipWith_left a b (le_of_eq hab)]
  · unfold tf_linspace
    rw [getLast_of_map_range _ _ (by omega)]
    rw [zipWith_congr_fun _ (fun _ y => y) (fun x y => linspace_at_last x y steps h2) a b]
    rw [zipWith_right a b (ge_of_eq hab)]
  · intro x y i
    unfold linspace_at
    push_cast
    ring
  · norm_num [tf_linspace, linspace_at, List.range_succ]
  · have hw : fine_walk e1 e2 steps B
        = (List.range (B * (steps / B))).map (fine_encoding e1 e2 steps) :=
      flatMap_range_map B (fine_encoding e1 e2 steps) (steps / B)
    rw [hw, Nat.mul_div_cancel' hd, getLast_of_map_range _ _ (by omega)]
    rfl

/-- C3 amended-claim witness: `[0,0] → [1,1]` with `steps = 3`, scalar endpoints
`0 → 1` with `steps = 3`, `batch_size = 3`. -/
theorem linear_walk_endpoints_amended_witness :
    (tf_linspace [0, 0] [1, 1] 3).head? = some [0, 0]
    ∧ (tf_linspace [0, 0] [1, 1] 3).getLast? = some [1, 1]
    ∧ linspace_at 0 1 3 (0 + 1) - linspace_at 0 1 3 0 = (1 - 0) / ((3 - 1 : Nat) : ℚ)
    ∧ tf_linspace [0, 0] [1, 1] 3 = [[0, 0], [1/2, 1/2], [1, 1]]
    ∧ (fine_walk 0 1 3 3).getLast?
        = some (0 + ((3 - 1 : Nat) : ℚ) * ((1 - 0) / ((3 : Nat) : ℚ))) := by
  have h := linear_walk_endpoints_amended [0, 0] [1, 1] 0 1 3 3 (by decide) (by decide)
    (by decide) (by decide)
  exact ⟨h.1, h.2.1, h.2.2.1 0 1 0, h.2.2.2.1, h.2.2.2.2⟩

/-- C4: for `B ∣ steps` (the guide uses 160 and 16) the circular noise walk's
`i`-th vector is `cos(2π·i/steps)·noiseX + sin(2π·i/steps)·noiseY` for every
`i < steps`; the pointwise formula is exactly periodic with period `steps`, and
at index 0 it equals `noiseX` (`cos 0 = 1`, `sin 0 = 0`), so the implicit vector
at index `steps` coincides with the vector at index 0. -/
theorem circular_walk_formula_periodic (steps B : Nat) (nx ny : ℝ)
    (hd : B ∣ steps) (hs : 0 < steps) :
    (∀ i, i < steps →
      (circular_walk steps B nx ny)[i]? = some (circ_vec steps i nx ny))
    ∧ (∀ i, circ_vec steps (i + steps) nx ny = circ_vec steps i nx ny)
    ∧ circ_vec steps 0 nx ny = nx := by
  refine ⟨?_, ?_, circ_vec_zero steps nx ny⟩
  · intro i hi
    have hw : circular_walk steps B nx ny
        = (List.range (B * (steps / B))).map (fun i => circ_vec steps i nx ny) :=
      flatMap_range_map B (fun i => circ_vec steps i nx ny) (steps / B)
    rw [hw, Nat.mul_div_cancel' hd]
    simp [List.getElem?_range hi]
  · intro i
    have hs' : (steps : ℝ) ≠ 0 := Nat.cast_ne_zero.mpr hs.ne'
    have hang : ((i + steps : Nat) : ℝ) * (2 * Real.pi) / (steps : ℝ)
        = (i : ℝ) * (2 * Real.pi) / (steps : ℝ) + 2 * Real.pi := by
      push_cast
      field_simp
      ring
    unfold circ_vec
    rw [hang, Real.cos_add_two_pi, Real.sin_add_two_pi]

/-- C4 witness at `steps = 4`, `B = 2`, `noiseX = 1`, `noiseY = 0`. -/
theorem circular_walk_formula_periodic_witness :
    (circular_walk 4 2 1 0)[0]? = some (circ_vec 4 0 1 0)
    ∧ circ_vec 4 (1 + 4) 1 0 = circ_vec 4 1 1 0
    ∧ circ_vec 4 0 1 0 = 1 := by
  have h := circular_walk_formula_periodic 4 2 1 0 (by decide) (by decide)
  exact ⟨h.1 0 (by decide), h.2.1 1, h.2.2⟩

/-- C5 counterexample: the circular walk's base tensors are drawn WITHOUT a seed
(`tf.random.normal(noise.shape, dtype=tf.float64)`), so two runs whose ambient
unseeded streams differ (here constant 0 vs constant 1) produce different walks
even though every explicit seed is unchanged. -/
theorem circular_noise_unseeded_c5_cex :
    noise_circular_walk (fun _ => (0 : ℝ)) 4 2
      ≠ noise_circular_walk (fun _ => (1 : ℝ)) 4 2 :=
  noise_walk_env_dep

/-- C5 (amended): the random text-encoding walk is deterministic given
`(start, steps, stepSize, seed)` — it draws only from the seeded stream, so its
output is independent of the ambient unseeded stream — but the circular walk's
`walk_noise_x`/`walk_noise_y` are unseeded, so re-running with the same seed
does NOT yield an identical circular walk. -/
theorem walk_determinism_amended {V : Type} [AddCommMonoid V] [Module ℚ V]
    (prng : Nat → Nat → V) (seed : Nat) (step_size : ℚ) (start : V) (steps B : Nat) :
    (∀ env₁ env₂ : Nat → V,
      text_random_walk prng env₁ seed step_size start steps B
        = text_random_walk prng env₂ seed step_size start steps B)
    ∧ ¬ (∀ env₁ env₂ : Nat → ℝ,
      noise_circular_walk env₁ 4 2 = noise_circular_walk env₂ 4 2) := by
  constructor
  · intro env₁ env₂
    rfl
  · intro hcontra
    exact noise_walk_env_dep (hcontra _ _)

/-- C6 counterexample: at `frames_per_second = 3` the written duration is
`1000 // 3 = 333` milliseconds, which is not `1000 / 3` exactly. -/
theorem gif_duration_c6_cex :
    (export_as_gif [0] 3 false).2 = Except.ok ⟨[0], 333, 0⟩
    ∧ ((333 : ℚ) ≠ 1000 / 3) :=
  ⟨rfl, by norm_num⟩

/-- C6 (amended): every successfully written gif has per-frame duration
`1000 // frames_per_second` (integer floor division) milliseconds, which equals
the claimed `1000 / framesPerSecond` exactly if and only if `framesPerSecond`
divides 1000. -/
theorem gif_duration_floor {F : Type} (images : List F) (fps : Nat) (rb : Bool)
    (a : GifArtifact F) (h : (export_as_gif images fps rb).2 = Except.ok a) :
    a.duration = 1000 / fps
    ∧ (((1000 / fps : Nat) : ℚ) = 1000 / (fps : ℚ) ↔ fps ∣ 1000) := by
  have key : a.duration = 1000 / fps ∧ fps ≠ 0 := by
    simp only [export_as_gif] at h
    split at h
    · exact Except.noConfusion h
    · split at h
      · exact Except.noConfusion h
      · rename_i hfps
        refine ⟨?_, hfps⟩
        simp only [Except.ok.injEq] at h
        rw [← h]
  refine ⟨key.1, ?_⟩
  have hfq : (fps : ℚ) ≠ 0 := Nat.cast_ne_zero.mpr key.2
  constructor
  · intro hc
    have h1 : ((1000 / fps : Nat) : ℚ) * (fps : ℚ) = 1000 := by
      rw [hc]
      field_simp
    have h2 : 1000 / fps * fps = 1000 := by exact_mod_cast h1
    exact ⟨1000 / fps, h2.symm.trans (Nat.mul_comm (1000 / fps) fps)⟩
  · intro hdvd
    exact Nat.cast_div hdvd hfq

/-- C6 amended-claim witness at one frame, 10 fps. -/
theorem gif_duration_floor_witness :
    (⟨[0], 100, 0⟩ : GifArtifact Nat).duration = 1000 / 10
    ∧ (((1000 / 10 : Nat) : ℚ) = 1000 / ((10 : Nat) : ℚ) ↔ (10 : Nat) ∣ 1000) :=
  gif_duration_floor [0] 10 false ⟨[0], 100, 0⟩ rfl

/-- C7: exporting an empty frame sequence fails — `images[0]` raises (the spec's
InvalidArgument taxonomy for empty sequences) — for every `frames_per_second`
and both values of `rubber_band`. -/
theorem export_empty_fails {F : Type} (fps : Nat) (rb : Bool) :
    (export_as_gif ([] : List F) fps rb).2 = Except.error GifError.indexError := by
  cases rb <;> simp [export_as_gif, rubber_band_ext]

/-- C8: the random walk's first generated vector is `start`, and each subsequent
vector is the previous one plus a fresh delta (`step_size`-scaled draw `i` of
the seeded stream); elements already collected are fixed values — the later
accumulator updates never change them. -/
theorem random_walk_recurrence {V : Type} [AddCommMonoid V] [Module ℚ V]
    (prng : Nat → Nat → V) (env : Nat → V) (seed : Nat) (step_size : ℚ)
    (start : V) (steps B : Nat) (hn : 0 < steps / B * B) :
    (text_random_walk prng env seed step_size start steps B)[0]? = some start
    ∧ ∀ i v, i + 1 < steps / B * B →
        (text_random_walk prng env seed step_size start steps B)[i]? = some v →
        (text_random_walk prng env seed step_size start steps B)[i + 1]?
          = some (v + step_size • prng seed i) := by
  have hw : text_random_walk prng env seed step_size start steps B
      = (List.range (steps / B * B)).map (rw_pos (fun i => step_size • prng seed i) start) :=
    random_walk_eq (fun i => step_size • prng seed i) start steps B
  constructor
  · rw [hw]
    simp [List.getElem?_range hn, rw_pos]
  · intro i v hi hv
    rw [hw] at hv ⊢
    simp only [List.getElem?_map, List.getElem?_range (by omega : i < steps / B * B),
      Option.map_some'] at hv
    simp only [List.getElem?_map, List.getElem?_range hi, Option.map_some']
    simp only [Option.some.injEq] at hv
    rw [← hv]
    rfl

/-- C8 witness: scalar tensors, `prng s i = s + i`, seed 5, `step_size = 1/2`,
`start = 3`, `steps = 4`, `batch_size = 2`. -/
theorem random_walk_recurrence_witness :
    (text_random_walk (fun s i => ((s + i : Nat) : ℚ)) (fun _ => 0) 5 (1/2) 3 4 2)[0]?
        = some 3
    ∧ (text_random_walk (fun s i => ((s + i : Nat) : ℚ)) (fun _ => 0) 5 (1/2) 3 4 2)[1]?
        = some (3 + (1/2 : ℚ) • ((5 + 0 : Nat) : ℚ)) := by
  have h := random_walk_recurrence (V := ℚ) (fun s i => ((s + i : Nat) : ℚ)) (fun _ => 0)
    5 (1/2) 3 4 2 (by decide)
  exact ⟨h.1, h.2 0 3 (by decide) h.1⟩

/-- C9 counterexample: after exporting `[0,1,2,3]` with `rubber_band=true`, the
caller's list object is `[0,1,2,3,2]` — the in-place `images += images[2:-1][::-1]`
IS observable through the caller's list. -/
theorem export_mutates_caller_c9_cex :
    (export_as_gif [0, 1, 2, 3] 10 true).1 ≠ [0, 1, 2, 3] := by
  decide

/-- C9 (amended): with `rubber_band=false` the caller's list is left unmodified,
but with `rubber_band=true` the exporter extends the caller's list in place
(Python `+=` on a list), so the caller's list becomes
`images ++ rubber_band_ext images`. -/
theorem export_caller_list_semantics {F : Type} (images : List F) (fps : Nat) :
    (export_as_gif images fps false).1 = images
    ∧ (export_as_gif images fps true).1 = images ++ rubber_band_ext images :=
  ⟨rfl, rfl⟩

/-- C10: exporting 1 or 2 frames with `rubber_band=true` appends nothing
(`images[2:-1]` is empty) and raises no error: the gif contains exactly the
input frames in order, and the caller's list is unchanged. -/
theorem export_short_sequence_rubber_band {F : Type} (images : List F) (fps : Nat)
    (hlen : images.length = 1 ∨ images.length = 2) (hfps : 0 < fps) :
    (export_as_gif images fps true).2 = Except.ok ⟨images, 1000 / fps, 0⟩
    ∧ (export_as_gif images fps true).1 = images := by
  have hext : rubber_band_ext images = [] := by
    have hd2 : images.drop 2 = [] := List.drop_eq_nil_of_le (by omega)
    simp [rubber_band_ext, hd2]
  obtain ⟨x, t, rfl⟩ : ∃ x t, images = x :: t := by
    cases images with
    | nil => simp at hlen
    | cons x t => exact ⟨x, t, rfl⟩
  constructor
  · simp [export_as_gif, hext, hfps.ne']
  · simp [export_as_gif, hext]

/-- C10 witness at the single frame `[7]`, 10 fps. -/
theorem export_short_sequence_rubber_band_witness :
    (export_as_gif [7] 10 true).2 = Except.ok ⟨[7], 1000 / 10, 0⟩
    ∧ (export_as_gif [7] 10 true).1 = [7] :=
  export_short_sequence_rubber_band [7] 10 (Or.inl rfl) (by decide)
